import Mathlib

/-!
Shallow embedding of the tag-extraction core of the Travel Memory Journal
repository (`src/ai_journaling_assistant/tag_extraction.py` and the taxonomy
from `src/ai_journaling_assistant/config.py`).

Text is modelled as `List Char` (ASCII semantics for the character classes
used by the code: `re`'s `\w`, `\s`, `str.lower`/`str.upper`).
`re.search(r'\b' + re.escape(kw) + r'\b', text)` is modelled as an explicit
scan over all start positions with word-boundary checks on both sides.
-/

namespace TravelJournal

/-- Word-constituent character, modelling Python's regex class `\w` on ASCII:
letters, digits and underscore (codepoints 65-90, 97-122, 48-57, 95). -/
def isWordChar (c : Char) : Bool :=
  decide ((97 ≤ c.toNat ∧ c.toNat ≤ 122) ∨ (65 ≤ c.toNat ∧ c.toNat ≤ 90) ∨
    (48 ≤ c.toNat ∧ c.toNat ≤ 57) ∨ c.toNat = 95)

/-- Whitespace character, modelling Python's `\s` / `str.split()` /
`str.strip()` whitespace on ASCII: space (32), tab (9), newline (10),
carriage return (13), vertical tab (11), form feed (12). -/
def pyIsSpace (c : Char) : Bool :=
  decide (c.toNat = 32 ∨ c.toNat = 9 ∨ c.toNat = 10 ∨ c.toNat = 13 ∨
    c.toNat = 11 ∨ c.toNat = 12)

/-- Accumulator worker for `pyWords`: `acc` holds the reversed current word. -/
def pyWordsAux : List Char → List Char → List (List Char)
  | [], acc => if acc.isEmpty then [] else [acc.reverse]
  | c :: cs, acc =>
    if pyIsSpace c then
      if acc.isEmpty then pyWordsAux cs [] else acc.reverse :: pyWordsAux cs []
    else pyWordsAux cs (c :: acc)

/-- Maximal runs of non-whitespace characters, modelling Python's
`text.split()` (split on whitespace runs, discarding empty pieces). -/
def pyWords (l : List Char) : List (List Char) :=
  pyWordsAux l []

/-- Joining words with single spaces, modelling `' '.join(words)`. -/
def joinSpace (ws : List (List Char)) : List Char :=
  (ws.intersperse [' ']).flatten

/-- Collapse every maximal run of whitespace characters to a single space,
modelling `re.sub(r'\s+', ' ', text)` (no trimming). -/
def collapseRuns : List Char → List Char
  | [] => []
  | [c] => [if pyIsSpace c then ' ' else c]
  | c :: d :: rest =>
    if pyIsSpace c && pyIsSpace d then collapseRuns (d :: rest)
    else (if pyIsSpace c then ' ' else c) :: collapseRuns (d :: rest)

/-- Strip leading and trailing whitespace, modelling `text.strip()`. -/
def pyStripList (l : List Char) : List Char :=
  ((l.dropWhile pyIsSpace).reverse.dropWhile pyIsSpace).reverse

/-- Embedding of `TagExtractor._preprocess_text`:
lowercase, `' '.join(text.split())`, replace every character matching
`[^\w\s]` by a space, collapse whitespace runs, strip. -/
def _preprocess_text (text : String) : List Char :=
  let t1 := text.toList.map Char.toLower
  let t2 := joinSpace (pyWords t1)
  let t3 := t2.map (fun c => if isWordChar c || pyIsSpace c then c else ' ')
  let t4 := collapseRuns t3
  pyStripList t4

/-- Whether position `i` of `t` holds a word-constituent character
(out-of-range positions count as non-word, like the ends of the string). -/
def wordAt (t : List Char) (i : Nat) : Bool :=
  isWordChar (t.getD i ' ')

/-- Regex word boundary `\b` at position `i` of `t`: exactly one of the two
adjacent positions holds a word-constituent character. -/
def boundaryAt (t : List Char) (i : Nat) : Bool :=
  (match i with
   | 0 => false
   | j + 1 => wordAt t j) != wordAt t i

/-- The literal pattern `pat` matches in `t` at position `i` with `\b` on
both sides (the pattern `re` builds is `\b` + escaped literal + `\b`). -/
def matchAt (pat t : List Char) (i : Nat) : Bool :=
  boundaryAt t i && decide ((t.drop i).take pat.length = pat) &&
    boundaryAt t (i + pat.length)

/-- Embedding of `re.search(r'\b' + re.escape(pat) + r'\b', text)`:
some start position of `t` carries a word-boundary-anchored match. -/
def reSearchWB (pat t : List Char) : Bool :=
  (List.range (t.length + 1)).any (fun i => matchAt pat t i)

/-- Last character of the word, modelling `keyword_lower.endswith('y')`. -/
def endsWithY (kw : List Char) : Bool :=
  match kw.reverse with
  | 'y' :: _ => true
  | _ => false

/-- Modelling `keyword_lower.endswith('ing')`. -/
def endsWithIng (kw : List Char) : Bool :=
  match kw.reverse with
  | 'g' :: 'n' :: 'i' :: _ => true
  | _ => false

/-- Modelling `keyword_lower[-1] == keyword_lower[-2]`. -/
def lastTwoEqual (kw : List Char) : Bool :=
  match kw.reverse with
  | a :: b :: _ => a == b
  | _ => false

/-- Embedding of the `variations` list built inside `_find_keywords` for a
single-word keyword, in the order the Python code appends them. -/
def variations (kw : List Char) : List (List Char) :=
  [kw ++ ['s'], kw ++ ['e', 's']]
    ++ (if endsWithY kw then [kw.dropLast ++ ['i', 'e', 's']] else [])
    ++ (if endsWithIng kw then
          [kw.dropLast.dropLast.dropLast,
           kw.dropLast.dropLast.dropLast ++ ['e', 'd'],
           kw.dropLast.dropLast.dropLast ++ ['s']]
        else
          [kw ++ ['i', 'n', 'g'], kw ++ ['e', 'd']]
            ++ (if kw.length > 2 && lastTwoEqual kw then [kw ++ ['i', 'n', 'g']]
                else []))

/-- Embedding of the per-keyword body of the scanning loop in
`_find_keywords`: the keyword is recorded iff the exact word-boundary match
fires, or (for single-word keywords) some non-empty generated variation
matches with the same word-boundary rule. -/
def keywordHit (kw : String) (text : List Char) : Bool :=
  let kl := kw.toList.map Char.toLower
  if reSearchWB kl text then true
  else if !kl.contains ' ' then
    (variations kl).any (fun v => !v.isEmpty && reSearchWB v text)
  else false

/-- Embedding of `config.get_tag_categories()`: the fixed taxonomy, an
insertion-ordered mapping category name -> keyword list. -/
def get_tag_categories : List (String × List String) :=
  [("food",
    ["restaurant", "cafe", "coffee", "wine", "beer", "tasting",
     "market", "street food", "cuisine", "cooking", "bakery",
     "bar", "pub", "brewery", "vineyard", "dining", "lunch",
     "dinner", "breakfast", "snack", "local food", "specialty"]),
   ("culture",
    ["museum", "temple", "church", "art", "architecture", "history",
     "monument", "palace", "castle", "gallery", "exhibition",
     "cultural", "heritage", "traditional", "festival", "ceremony",
     "performance", "theater", "music", "dance", "sculpture",
     "painting", "historic"]),
   ("outdoor",
    ["hiking", "beach", "mountain", "nature", "park", "forest",
     "lake", "river", "ocean", "trail", "camping", "climbing",
     "swimming", "surfing", "kayaking", "cycling", "walking",
     "trekking", "wildlife", "scenic", "viewpoint", "sunrise",
     "sunset", "photography"]),
   ("transport",
    ["flight", "train", "bus", "taxi", "metro", "subway",
     "ferry", "boat", "car", "rental", "uber", "lyft",
     "walking", "cycling", "scooter", "rickshaw", "tram",
     "cable car", "funicular", "helicopter", "transfer"]),
   ("accommodation",
    ["hotel", "hostel", "airbnb", "resort", "guesthouse",
     "bed and breakfast", "camping", "glamping", "motel",
     "inn", "lodge", "villa", "apartment", "homestay",
     "boutique", "luxury", "budget", "booking", "check-in",
     "room", "suite"]),
   ("shopping",
    ["market", "mall", "store", "shop", "boutique", "souvenir",
     "gift", "local", "craft", "handmade", "antique",
     "vintage", "fashion", "clothing", "jewelry", "art",
     "books", "spices", "textiles", "bargaining", "purchase"]),
   ("entertainment",
    ["nightlife", "club", "bar", "live music", "concert",
     "show", "casino", "games", "sports", "event",
     "party", "dancing", "karaoke", "comedy", "cinema",
     "theater", "amusement park", "theme park", "festival"]),
   ("experience",
    ["amazing", "beautiful", "incredible", "stunning", "awesome",
     "wonderful", "fantastic", "memorable", "unique", "special",
     "relaxing", "exciting", "adventurous", "peaceful", "romantic",
     "fun", "interesting", "inspiring", "breathtaking", "unforgettable"])]

/-- Category names in taxonomy declaration order
(`self.categories.keys()`). -/
def allCategoryNames : List String :=
  get_tag_categories.map Prod.fst

/-- Dictionary lookup `self.categories[name]` / membership test
`name in self.categories` (category names are unique, so `find?` on the
association list agrees with the Python dict). -/
def lookupCat (name : String) : Option (List String) :=
  (get_tag_categories.find? (fun p => p.1 = name)).map Prod.snd

/-- Embedding of `filter_categories or self.categories.keys()`: Python's
`or` falls back to all keys when the filter is `None` or the empty list
(both falsy). -/
def categoriesToSearch : Option (List String) → List String
  | none => allCategoryNames
  | some [] => allCategoryNames
  | some (c :: cs) => c :: cs

/-- One iteration of the outer loop of `_find_keywords`: a category name
not present in the taxonomy is skipped (`continue`); otherwise its keywords
are scanned in declaration order and each hit appends the canonical
keyword once. -/
def scanCategory (text : List Char) (name : String) : List String :=
  match lookupCat name with
  | none => []
  | some kws => kws.filter (fun kw => keywordHit kw text)

/-- Embedding of `TagExtractor._find_keywords`. -/
def _find_keywords (text : List Char) (filterCategories : Option (List String)) :
    List String :=
  (categoriesToSearch filterCategories).flatMap (scanCategory text)

/-- Embedding of the dedup loop in `extract_tags`: scan the found tags,
keeping a tag iff it has not been seen yet (`seen` is carried as the list of
already-kept tags, which is exactly the contents of the Python `seen` set). -/
def dedupFirstAux (seen : List String) : List String → List String
  | [] => []
  | t :: ts =>
    if t ∈ seen then dedupFirstAux seen ts
    else t :: dedupFirstAux (t :: seen) ts

/-- Embedding of `TagExtractor.extract_tags`. The Python guard
`if not description or not description.strip(): return []` is equivalent to
the stripped description being empty (the empty string also strips to
empty). -/
def extract_tags (description : String) (categories : Option (List String)) :
    List String :=
  if pyStripList description.toList = [] then []
  else dedupFirstAux [] (_find_keywords (_preprocess_text description) categories)

/-- One character of Python `str.upper()`: an ASCII letter maps to its ASCII
uppercase, and 'ß' (U+00DF) expands to "SS" (Unicode special casing, as in
Python where "buß".upper() == "BUSS"). Characters outside this modelled
subset are left unchanged, so the map is exact on ASCII text and on 'ß'. -/
def pyUpperChar (c : Char) : List Char :=
  if c.toNat = 223 then ['S', 'S'] else [Char.toUpper c]

/-- One character of Python `str.lower()`: an ASCII letter maps to its ASCII
lowercase, and 'İ' (U+0130) expands to 'i' followed by the combining dot
above U+0307 (Unicode special casing). Characters outside this modelled
subset are left unchanged, so the map is exact on ASCII text and on 'İ'. -/
def pyLowerChar (c : Char) : List Char :=
  if c.toNat = 304 then ['i', Char.ofNat 775] else [Char.toLower c]

/-- Modelling Python `str.upper()`. -/
def pyUpper (s : String) : String :=
  String.mk (s.toList.flatMap pyUpperChar)

/-- Modelling Python `str.lower()`. -/
def pyLower (s : String) : String :=
  String.mk (s.toList.flatMap pyLowerChar)

/-- Lookup in the reverse index `self._keyword_to_categories` built by
`TagExtractor.__init__`: the categories containing `kw`, in taxonomy
declaration order (the init loop appends each category once per keyword it
contains, scanning categories in declaration order; no keyword repeats
inside a single category, so this filter is exactly the built list, and a
keyword outside the taxonomy has no entry, i.e. the empty list). -/
def keywordToCategories (kw : String) : List String :=
  (get_tag_categories.filter (fun p => kw ∈ p.2)).map Prod.fst

/-- One iteration of the tag loop of `extract_tags_by_category`: append
`tag` to the bucket of every category containing it, unless already
present. -/
def addTag (categorized : List (String × List String)) (tag : String) :
    List (String × List String) :=
  categorized.map (fun p =>
    if p.1 ∈ keywordToCategories tag ∧ tag ∉ p.2 then (p.1, p.2 ++ [tag]) else p)

/-- Embedding of `TagExtractor.extract_tags_by_category`: buckets are
initialized for every category in taxonomy order, filled from the
unfiltered `extract_tags` result, and empty buckets are dropped. -/
def extract_tags_by_category (description : String) :
    List (String × List String) :=
  let allTags := extract_tags description none
  let start := get_tag_categories.map (fun p => (p.1, ([] : List String)))
  (allTags.foldl addTag start).filter (fun p => !p.2.isEmpty)

/-- Dict update step of the `__init__` reverse-index loop: append `cat` to
the entry of `kw`, creating the entry if absent. -/
def indexAdd (acc : List (String × List String)) (kw cat : String) :
    List (String × List String) :=
  if acc.any (fun q => q.1 = kw) then
    acc.map (fun q => if q.1 = kw then (q.1, q.2 ++ [cat]) else q)
  else acc ++ [(kw, [cat])]

/-- Embedding of the reverse-index construction in `TagExtractor.__init__`:
for each category (in taxonomy order), for each of its keywords, append the
category to the keyword's entry. -/
def buildKeywordIndex : List (String × List String) :=
  get_tag_categories.foldl
    (fun acc p => p.2.foldl (fun a kw => indexAdd a kw p.1) acc) []

/-- State owned by a `TagExtractor` instance after `__init__`. -/
structure TagExtractorState where
  categories : List (String × List String)
  keyword_to_categories : List (String × List String)

/-- Embedding of `TagExtractor.__init__`: the constructor takes no
arguments; it installs the built-in default taxonomy and derives the
reverse index from it. -/
def tagExtractor_init : TagExtractorState :=
  { categories := get_tag_categories
    keyword_to_categories := buildKeywordIndex }

/-! Character-level facts about the ASCII case maps. -/

theorem char_toNat_ofNat {n : Nat} (h : n < 55296) : (Char.ofNat n).toNat = n := by
  have hv : n.isValidChar := Or.inl h
  unfold Char.ofNat
  rw [dif_pos hv]
  simp [Char.ofNatAux, Char.toNat, UInt32.toNat]

theorem char_ofNat_toNat (c : Char) : Char.ofNat c.toNat = c := by
  have hv : c.toNat.isValidChar := c.valid
  unfold Char.ofNat
  rw [dif_pos hv]
  apply Char.eq_of_val_eq
  apply UInt32.eq_of_toBitVec_eq
  apply BitVec.eq_of_toNat_eq
  simp [Char.ofNatAux, Char.toNat, UInt32.toNat]

theorem char_toNat_lt (c : Char) : c.toNat < 1114112 := by
  rcases c.valid with h | ⟨_, h⟩
  · exact Nat.lt_trans h (by omega)
  · exact h

theorem toLower_toUpper (c : Char) : (Char.toUpper c).toLower = Char.toLower c := by
  unfold Char.toUpper
  by_cases h : 97 ≤ c.toNat ∧ c.toNat ≤ 122
  · rw [if_pos h]
    unfold Char.toLower
    rw [char_toNat_ofNat (by omega)]
    rw [if_pos (by omega), if_neg (by omega)]
    have e : c.toNat - 32 + 32 = c.toNat := by omega
    rw [e, char_ofNat_toNat]
  · rw [if_neg h]

theorem toLower_toLower (c : Char) : (Char.toLower c).toLower = Char.toLower c := by
  unfold Char.toLower
  by_cases h : 65 ≤ c.toNat ∧ c.toNat ≤ 90
  · rw [if_pos h, if_neg]
    rw [char_toNat_ofNat (by omega)]
    omega
  · rw [if_neg h, if_neg h]

theorem pyIsSpace_toLower (c : Char) : pyIsSpace (Char.toLower c) = pyIsSpace c := by
  unfold Char.toLower
  by_cases h : 65 ≤ c.toNat ∧ c.toNat ≤ 90
  · rw [if_pos h]
    simp only [pyIsSpace, char_toNat_ofNat (by omega : c.toNat + 32 < 55296),
      decide_eq_decide]
    omega
  · rw [if_neg h]

theorem pyIsSpace_toUpper (c : Char) : pyIsSpace (Char.toUpper c) = pyIsSpace c := by
  unfold Char.toUpper
  by_cases h : 97 ≤ c.toNat ∧ c.toNat ≤ 122
  · rw [if_pos h]
    simp only [pyIsSpace, char_toNat_ofNat (by omega : c.toNat - 32 < 55296),
      decide_eq_decide]
    omega
  · rw [if_neg h]

/-! Behaviour of the dedup loop of `extract_tags`. -/

theorem mem_dedupFirstAux (t : String) :
    ∀ (l seen : List String), t ∈ dedupFirstAux seen l ↔ t ∈ l ∧ t ∉ seen := by
  intro l
  induction l with
  | nil => intro seen; simp [dedupFirstAux]
  | cons a as ih =>
    intro seen
    by_cases h : a ∈ seen
    · rw [dedupFirstAux, if_pos h, ih, List.mem_cons]
      constructor
      · rintro ⟨hm, hn⟩; exact ⟨Or.inr hm, hn⟩
      · rintro ⟨hm | hm, hn⟩
        · exact absurd (hm ▸ h) hn
        · exact ⟨hm, hn⟩
    · rw [dedupFirstAux, if_neg h, List.mem_cons, List.mem_cons, ih, List.mem_cons]
      constructor
      · rintro (rfl | ⟨hm, hn⟩)
        · exact ⟨Or.inl rfl, h⟩
        · exact ⟨Or.inr hm, fun hs => hn (Or.inr hs)⟩
      · rintro ⟨rfl | hm, hn⟩
        · exact Or.inl rfl
        · by_cases ht : t = a
          · exact Or.inl ht
          · exact Or.inr ⟨hm, fun hs => (hs.elim ht hn)⟩

theorem nodup_dedupFirstAux :
    ∀ (l seen : List String), (dedupFirstAux seen l).Nodup := by
  intro l
  induction l with
  | nil => intro seen; simp [dedupFirstAux]
  | cons a as ih =>
    intro seen
    by_cases h : a ∈ seen
    · rw [dedupFirstAux, if_pos h]; exact ih seen
    · rw [dedupFirstAux, if_neg h]
      refine List.Nodup.cons ?_ (ih (a :: seen))
      intro hmem
      exact ((mem_dedupFirstAux a as (a :: seen)).mp hmem).2 (List.mem_cons_self a seen)

theorem pairwise_indexOf_dedupFirstAux :
    ∀ (l seen : List String),
      List.Pairwise (fun a b => l.indexOf a < l.indexOf b) (dedupFirstAux seen l) := by
  intro l
  induction l with
  | nil => intro seen; simp [dedupFirstAux]
  | cons t ts ih =>
    intro seen
    by_cases h : t ∈ seen
    · rw [dedupFirstAux, if_pos h]
      refine List.Pairwise.imp_of_mem ?_ (ih seen)
      intro a b ha hb hR
      have ha' := (mem_dedupFirstAux a ts seen).mp ha
      have hb' := (mem_dedupFirstAux b ts seen).mp hb
      have hat : t ≠ a := fun e => ha'.2 (e ▸ h)
      have hbt : t ≠ b := fun e => hb'.2 (e ▸ h)
      rw [List.indexOf_cons_ne _ hat, List.indexOf_cons_ne _ hbt]
      exact Nat.succ_lt_succ hR
    · rw [dedupFirstAux, if_neg h]
      refine List.Pairwise.cons ?_ ?_
      · intro b hb
        have hb' := (mem_dedupFirstAux b ts (t :: seen)).mp hb
        have hbt : t ≠ b := fun e => hb'.2 (e ▸ List.mem_cons_self t seen)
        rw [List.indexOf_cons_self, List.indexOf_cons_ne _ hbt]
        exact Nat.succ_pos _
      · refine List.Pairwise.imp_of_mem ?_ (ih (t :: seen))
        intro a b ha hb hR
        have ha' := (mem_dedupFirstAux a ts (t :: seen)).mp ha
        have hb' := (mem_dedupFirstAux b ts (t :: seen)).mp hb
        have hat : t ≠ a := fun e => ha'.2 (e ▸ List.mem_cons_self t seen)
        have hbt : t ≠ b := fun e => hb'.2 (e ▸ List.mem_cons_self t seen)
        rw [List.indexOf_cons_ne _ hat, List.indexOf_cons_ne _ hbt]
        exact Nat.succ_lt_succ hR

/-! Matching on the empty text never fires, and a whitespace-only
description preprocesses to the empty text. -/

theorem reSearchWB_nil (pat : List Char) : reSearchWB pat [] = false := rfl

theorem keywordHit_nil (kw : String) : keywordHit kw [] = false := by
  unfold keywordHit
  simp only [reSearchWB_nil, Bool.and_false, Bool.false_eq_true, if_false]
  simp [List.any_eq_false]

theorem scanCategory_nil (name : String) : scanCategory [] name = [] := by
  unfold scanCategory
  cases lookupCat name with
  | none => rfl
  | some kws => simp [List.filter_eq_nil_iff, keywordHit_nil]

theorem find_keywords_nil (cats : Option (List String)) :
    _find_keywords [] cats = [] := by
  unfold _find_keywords
  rw [List.flatMap_eq_nil_iff]
  intro c _
  exact scanCategory_nil c

theorem forall_dropWhile_iff (p : Char → Bool) (l : List Char) :
    (∀ x ∈ l.dropWhile p, p x) ↔ ∀ x ∈ l, p x := by
  induction l with
  | nil => simp
  | cons a as ih =>
    by_cases h : p a
    · rw [List.dropWhile_cons_of_pos h, ih]
      simp [List.forall_mem_cons, h]
    · rw [List.dropWhile_cons_of_neg h]

theorem pyStripList_eq_nil_iff (l : List Char) :
    pyStripList l = [] ↔ ∀ c ∈ l, pyIsSpace c := by
  unfold pyStripList
  rw [List.reverse_eq_nil_iff, List.dropWhile_eq_nil_iff]
  simp only [List.mem_reverse]
  exact forall_dropWhile_iff pyIsSpace l

theorem pyWordsAux_all_space {l : List Char} (h : ∀ c ∈ l, pyIsSpace c) :
    pyWordsAux l [] = [] := by
  induction l with
  | nil => rfl
  | cons a as ih =>
    rw [pyWordsAux, if_pos (h a (List.mem_cons_self a as))]
    simp only [List.isEmpty_nil, if_pos]
    exact ih (fun c hc => h c (List.mem_cons_of_mem a hc))

theorem preprocess_of_trivial {d : String} (h : pyStripList d.toList = []) :
    _preprocess_text d = [] := by
  have hall : ∀ c ∈ d.toList, pyIsSpace c := (pyStripList_eq_nil_iff _).mp h
  have hall' : ∀ c ∈ d.toList.map Char.toLower, pyIsSpace c := by
    intro c hc
    rcases List.mem_map.mp hc with ⟨b, hb, rfl⟩
    rw [pyIsSpace_toLower]
    exact hall b hb
  simp only [_preprocess_text, pyWords]
  rw [pyWordsAux_all_space hall']
  rfl

/-- `extract_tags` is, on every input, the first-occurrence dedup of the
keywords found by `_find_keywords` on the preprocessed text (the early
return for blank descriptions agrees with this, because a blank description
preprocesses to the empty text, where nothing matches). -/
theorem extract_tags_eq (d : String) (cats : Option (List String)) :
    extract_tags d cats =
      dedupFirstAux [] (_find_keywords (_preprocess_text d) cats) := by
  unfold extract_tags
  by_cases h : pyStripList d.toList = []
  · rw [if_pos h, preprocess_of_trivial h, find_keywords_nil]
    rfl
  · rw [if_neg h]

/-! Taxonomy lookup facts and the membership characterization of
`_find_keywords`. -/

theorem lookupCat_mem {c : String} {kws : List String}
    (h : lookupCat c = some kws) : (c, kws) ∈ get_tag_categories := by
  unfold lookupCat at h
  cases hf : get_tag_categories.find? (fun q => decide (q.1 = c)) with
  | none => rw [hf] at h; cases h
  | some q =>
    rw [hf] at h
    have hp : q ∈ get_tag_categories := List.mem_of_find?_eq_some hf
    have h2 := List.find?_some (p := fun r : String × List String => decide (r.1 = c)) hf
    have hc : q.1 = c := of_decide_eq_true h2
    have hk : q.2 = kws := Option.some.inj h
    rw [← hc, ← hk]
    exact hp

theorem lookup_of_mem :
    ∀ p ∈ get_tag_categories, lookupCat p.1 = some p.2 := by decide

theorem mem_find_keywords {t : String} {text : List Char}
    {cats : Option (List String)} :
    t ∈ _find_keywords text cats ↔
      ∃ c, c ∈ categoriesToSearch cats ∧
        ∃ kws, lookupCat c = some kws ∧ t ∈ kws ∧ keywordHit t text = true := by
  unfold _find_keywords
  rw [List.mem_flatMap]
  constructor
  · rintro ⟨c, hc, ht⟩
    unfold scanCategory at ht
    cases h : lookupCat c with
    | none => rw [h] at ht; cases ht
    | some kws =>
      rw [h] at ht
      have := List.mem_filter.mp ht
      exact ⟨c, hc, kws, h, this.1, this.2⟩
  · rintro ⟨c, hc, kws, h, hk, hh⟩
    refine ⟨c, hc, ?_⟩
    unfold scanCategory
    rw [h]
    exact List.mem_filter.mpr ⟨hk, hh⟩

theorem mem_extract_tags_iff {t : String} {d : String}
    {cats : Option (List String)} :
    t ∈ extract_tags d cats ↔
      t ∈ _find_keywords (_preprocess_text d) cats := by
  rw [extract_tags_eq, mem_dedupFirstAux]
  simp

theorem keywordToCategories_of_mem {t c : String} {kws : List String}
    (hmem : (c, kws) ∈ get_tag_categories) (ht : t ∈ kws) :
    c ∈ keywordToCategories t := by
  unfold keywordToCategories
  refine List.mem_map.mpr ⟨(c, kws), ?_, rfl⟩
  exact List.mem_filter.mpr ⟨hmem, by simpa using ht⟩

theorem mem_of_keywordToCategories {t c : String}
    (h : c ∈ keywordToCategories t) :
    ∃ kws, (c, kws) ∈ get_tag_categories ∧ t ∈ kws := by
  unfold keywordToCategories at h
  rcases List.mem_map.mp h with ⟨p, hp, rfl⟩
  have := List.mem_filter.mp hp
  exact ⟨p.2, by simpa using this.1, by simpa using this.2⟩

/-! Case-insensitivity machinery. -/

theorem pyStripList_map_eq_nil {f : Char → Char}
    (hf : ∀ c, pyIsSpace (f c) = pyIsSpace c) (l : List Char) :
    pyStripList (l.map f) = [] ↔ pyStripList l = [] := by
  simp only [pyStripList_eq_nil_iff, List.mem_map]
  constructor
  · intro h c hc
    rw [← hf c]
    exact h (f c) ⟨c, hc, rfl⟩
  · rintro h x ⟨c, hc, rfl⟩
    rw [hf c]
    exact h c hc

theorem preprocess_map_eq {f : Char → Char}
    (hf : ∀ c, (f c).toLower = c.toLower) (d : String) :
    _preprocess_text (String.mk (d.toList.map f)) = _preprocess_text d := by
  simp only [_preprocess_text]
  have h1 : (String.mk (d.toList.map f)).toList = d.toList.map f := rfl
  rw [h1, List.map_map]
  have h2 : Char.toLower ∘ f = Char.toLower := funext hf
  rw [h2]

theorem extract_tags_map_eq {f : Char → Char}
    (hf : ∀ c, (f c).toLower = c.toLower)
    (hs : ∀ c, pyIsSpace (f c) = pyIsSpace c)
    (d : String) (cats : Option (List String)) :
    extract_tags (String.mk (d.toList.map f)) cats = extract_tags d cats := by
  unfold extract_tags
  rw [preprocess_map_eq hf]
  have hg : pyStripList (String.mk (d.toList.map f)).toList = [] ↔
      pyStripList d.toList = [] := pyStripList_map_eq_nil hs d.toList
  by_cases h : pyStripList d.toList = []
  · rw [if_pos h, if_pos (hg.mpr h)]
  · rw [if_neg h, if_neg (fun hh => h (hg.mp hh))]

/-! Closed form of the category-bucket fold in `extract_tags_by_category`. -/

theorem addTag_map (g : String → List String) (t : String) :
    addTag (get_tag_categories.map (fun p => (p.1, g p.1))) t
      = get_tag_categories.map (fun p =>
          (p.1, if p.1 ∈ keywordToCategories t ∧ t ∉ g p.1
                then g p.1 ++ [t] else g p.1)) := by
  unfold addTag
  rw [List.map_map]
  apply List.map_congr_left
  intro p _
  simp only [Function.comp]
  by_cases h : p.1 ∈ keywordToCategories t ∧ t ∉ g p.1
  · rw [if_pos h, if_pos h]
  · rw [if_neg h, if_neg h]

theorem foldl_addTag_closed (tags : List String) :
    ∀ g : String → List String,
      tags.foldl addTag (get_tag_categories.map (fun p => (p.1, g p.1)))
        = get_tag_categories.map (fun p =>
            (p.1, tags.foldl
              (fun l t => if p.1 ∈ keywordToCategories t ∧ t ∉ l then l ++ [t] else l)
              (g p.1))) := by
  induction tags with
  | nil => intro g; rfl
  | cons t ts ih =>
    intro g
    rw [List.foldl_cons, addTag_map g t,
      ih (fun x => if x ∈ keywordToCategories t ∧ t ∉ g x then g x ++ [t] else g x)]
    simp only [List.foldl_cons]

theorem mem_foldl_step (c : String) (l : List String) :
    ∀ (acc : List String) (k : String),
      k ∈ l.foldl
            (fun l' t => if c ∈ keywordToCategories t ∧ t ∉ l' then l' ++ [t] else l')
            acc
        ↔ k ∈ acc ∨ (k ∈ l ∧ c ∈ keywordToCategories k) := by
  induction l with
  | nil => intro acc k; simp
  | cons t ts ih =>
    intro acc k
    rw [List.foldl_cons, ih]
    by_cases h : c ∈ keywordToCategories t ∧ t ∉ acc
    · rw [if_pos h]
      simp only [List.mem_append, List.mem_cons, List.not_mem_nil, or_false]
      constructor
      · rintro ((hk | rfl) | hk2)
        · exact Or.inl hk
        · exact Or.inr ⟨Or.inl rfl, h.1⟩
        · exact Or.inr ⟨Or.inr hk2.1, hk2.2⟩
      · rintro (hk | ⟨rfl | hk, hc⟩)
        · exact Or.inl (Or.inl hk)
        · exact Or.inl (Or.inr rfl)
        · exact Or.inr ⟨hk, hc⟩
    · rw [if_neg h]
      simp only [List.mem_cons]
      constructor
      · rintro (hk | hk2)
        · exact Or.inl hk
        · exact Or.inr ⟨Or.inr hk2.1, hk2.2⟩
      · rintro (hk | ⟨rfl | hk, hc⟩)
        · exact Or.inl hk
        · by_cases hta : k ∈ acc
          · exact Or.inl hta
          · exact absurd ⟨hc, hta⟩ h
        · exact Or.inr ⟨hk, hc⟩

theorem extract_tags_by_category_eq (d : String) :
    extract_tags_by_category d
      = (get_tag_categories.map (fun p =>
          (p.1, (extract_tags d none).foldl
            (fun l t => if p.1 ∈ keywordToCategories t ∧ t ∉ l then l ++ [t] else l)
            []))).filter (fun p => !p.2.isEmpty) := by
  simp only [extract_tags_by_category]
  rw [foldl_addTag_closed (extract_tags d none) (fun _ => ([] : List String))]

/-! Scan-order helpers. -/

theorem scan_eq_filter (text : List Char) :
    ∀ L : List (String × List String), (∀ p ∈ L, lookupCat p.1 = some p.2) →
      (L.map Prod.fst).flatMap (scanCategory text)
        = L.flatMap (fun p => p.2.filter (fun kw => keywordHit kw text)) := by
  intro L
  induction L with
  | nil => intro _; rfl
  | cons p ps ih =>
    intro h
    rw [List.map_cons, List.flatMap_cons, List.flatMap_cons,
      ih (fun q hq => h q (List.mem_cons_of_mem p hq))]
    congr 1
    unfold scanCategory
    rw [h p (List.mem_cons_self p ps)]

theorem flatMap_filter_isSome (text : List Char) :
    ∀ L : List String,
      L.flatMap (scanCategory text)
        = (L.filter (fun c => (lookupCat c).isSome)).flatMap (scanCategory text) := by
  intro L
  induction L with
  | nil => rfl
  | cons a as ih =>
    by_cases h : (lookupCat a).isSome
    · rw [List.filter_cons_of_pos (by simpa using h), List.flatMap_cons,
        List.flatMap_cons, ih]
    · rw [List.filter_cons_of_neg (by simpa using h), List.flatMap_cons, ih]
      have hnone : lookupCat a = none := Option.not_isSome_iff_eq_none.mp h
      have hs : scanCategory text a = [] := by
        unfold scanCategory
        rw [hnone]
      rw [hs, List.nil_append]

/-! The claims. -/

/-- C1: for every description, `extract_tags` (no filter) returns a
duplicate-free sequence containing exactly the keywords found by the scan of
the preprocessed text, ordered by the position of each keyword's first match
in that scan; and the scan walks categories in taxonomy declaration order
and, within each category, keywords in per-category declaration order. -/
theorem extract_tags_nodup_first_match_order (d : String) :
    (extract_tags d none).Nodup
    ∧ (∀ t, t ∈ extract_tags d none ↔ t ∈ _find_keywords (_preprocess_text d) none)
    ∧ List.Pairwise (fun a b =>
        (_find_keywords (_preprocess_text d) none).indexOf a
          < (_find_keywords (_preprocess_text d) none).indexOf b)
        (extract_tags d none)
    ∧ _find_keywords (_preprocess_text d) none
        = get_tag_categories.flatMap
            (fun p => p.2.filter (fun kw => keywordHit kw (_preprocess_text d))) := by
  refine ⟨?_, ?_, ?_, ?_⟩
  · rw [extract_tags_eq]
    exact nodup_dedupFirstAux _ _
  · intro t
    exact mem_extract_tags_iff
  · rw [extract_tags_eq]
    exact pairwise_indexOf_dedupFirstAux _ _
  · exact scan_eq_filter _ get_tag_categories lookup_of_mem

/-- C2: blank, whitespace-only, punctuation-only and match-free inputs all
yield the empty (or trivial) result from both extraction entry points; a
description that strips to empty short-circuits to the empty list. -/
theorem extract_tags_trivial_inputs :
    extract_tags "" none = []
    ∧ extract_tags "   " none = []
    ∧ extract_tags "!!!" none = []
    ∧ extract_tags_by_category "" = []
    ∧ (∀ (d : String) (cats : Option (List String)),
        pyStripList d.toList = [] → extract_tags d cats = [])
    ∧ (∀ (d : String) (cats : Option (List String)),
        _find_keywords (_preprocess_text d) cats = [] → extract_tags d cats = []) := by
  refine ⟨by decide, by decide, by decide, by decide, ?_, ?_⟩
  · intro d cats h
    unfold extract_tags
    rw [if_pos h]
  · intro d cats h
    rw [extract_tags_eq, h]
    rfl

theorem extract_tags_trivial_inputs_witness : extract_tags "\t " none = [] :=
  extract_tags_trivial_inputs.2.2.2.2.1 "\t " none (by decide)

/-- C3: keyword matching is word-boundary anchored: "restaurant" is not
extracted from "restaurateur" but is extracted from "the restaurant". -/
theorem word_boundary_precision :
    "restaurant" ∉ extract_tags "restaurateur" none
    ∧ "restaurant" ∈ extract_tags "the restaurant" none := by
  refine ⟨by decide, by decide⟩

/-- C4: any hit — exact or via a morphological variant — records a keyword
declared in the taxonomy (the canonical form), never the variant string;
concretely "hiked through the mountains" yields "mountain", not
"mountains". -/
theorem canonical_keyword_recorded :
    (∀ (text : List Char) (cats : Option (List String)) (t : String),
        t ∈ _find_keywords text cats → ∃ p ∈ get_tag_categories, t ∈ p.2)
    ∧ "mountain" ∈ extract_tags "hiked through the mountains" none
    ∧ "mountains" ∉ extract_tags "hiked through the mountains" none := by
  refine ⟨?_, by decide, by decide⟩
  intro text cats t ht
  rcases mem_find_keywords.mp ht with ⟨c, _, kws, hl, hk, _⟩
  exact ⟨(c, kws), lookupCat_mem hl, hk⟩

theorem canonical_keyword_recorded_witness :
    ∃ p ∈ get_tag_categories, "inn" ∈ p.2 :=
  canonical_keyword_recorded.1 (String.toList "inn") none "inn" (by decide)

/-- C5 counterexample: with the empty category filter the code falls back to
scanning ALL categories (Python's falsy `or`), so the result can contain a
tag even though no category belongs to the empty filter — refuting the
claim for the subset C = []. -/
theorem category_filter_subset_counterexample :
    ¬ (∀ t ∈ extract_tags "restaurant" (some []),
        ∃ c, c ∈ ([] : List String) ∧ ∃ kws, lookupCat c = some kws ∧ t ∈ kws) := by
  intro h
  rcases h "restaurant" (by decide) with ⟨c, hc, _⟩
  exact absurd hc (List.not_mem_nil c)

/-- C5 (amended): for every description and every NON-EMPTY category filter
C, every extracted tag is a keyword of some category named in C, and is also
extracted by the unfiltered call. -/
theorem category_filter_subset (d : String) (C : List String) (hC : C ≠ []) :
    ∀ t ∈ extract_tags d (some C),
      (∃ c, c ∈ C ∧ ∃ kws, lookupCat c = some kws ∧ t ∈ kws)
      ∧ t ∈ extract_tags d none := by
  intro t ht
  rcases mem_find_keywords.mp (mem_extract_tags_iff.mp ht) with
    ⟨c, hc, kws, hl, hk, hh⟩
  have hcC : c ∈ C := by
    cases C with
    | nil => exact absurd rfl hC
    | cons a as => exact hc
  refine ⟨⟨c, hcC, kws, hl, hk⟩, ?_⟩
  apply mem_extract_tags_iff.mpr
  apply mem_find_keywords.mpr
  refine ⟨c, ?_, kws, hl, hk, hh⟩
  show c ∈ allCategoryNames
  exact List.mem_map.mpr ⟨(c, kws), lookupCat_mem hl, rfl⟩

theorem category_filter_subset_witness :
    (∃ c, c ∈ ["food"] ∧ ∃ kws, lookupCat c = some kws ∧ "wine" ∈ kws)
    ∧ "wine" ∈ extract_tags "wine" none :=
  category_filter_subset "wine" ["food"] (by decide) "wine" (by decide)

/-- C6 counterexample: a filter naming only a category absent from the
taxonomy does NOT fall back to scanning all categories — it scans nothing,
so the result differs from the unfiltered call, refuting the claim. -/
theorem categories_scanned_counterexample :
    extract_tags "restaurant" (some ["bogus"]) ≠ extract_tags "restaurant" none := by
  decide

/-- C6 (amended): with no filter the scan walks all categories in taxonomy
declaration order; an empty-list filter behaves like no filter (Python's
falsy `or`); a non-empty filter is scanned as given, with each name absent
from the taxonomy skipped individually (no fallback to all categories). -/
theorem categories_scanned (text : List Char) (C : List String) :
    _find_keywords text none = allCategoryNames.flatMap (scanCategory text)
    ∧ _find_keywords text (some []) = _find_keywords text none
    ∧ (C ≠ [] →
        _find_keywords text (some C)
          = (C.filter (fun c => (lookupCat c).isSome)).flatMap (scanCategory text)) := by
  refine ⟨rfl, rfl, ?_⟩
  intro hC
  cases C with
  | nil => exact absurd rfl hC
  | cons a as =>
    show (a :: as).flatMap (scanCategory text) = _
    exact flatMap_filter_isSome text (a :: as)

theorem categories_scanned_witness :
    _find_keywords [] (some ["bogus"])
      = ((["bogus"].filter (fun c => (lookupCat c).isSome)).flatMap
          (scanCategory [])) :=
  (categories_scanned [] ["bogus"]).2.2 (by decide)

/-- C7: a keyword is extracted by `extract_tags` iff it occurs in some
category's bucket of `extract_tags_by_category`; every extracted keyword is
placed in the bucket of every category containing it; and every bucket in
the result is non-empty. -/
theorem category_round_trip (d : String) :
    (∀ k, k ∈ extract_tags d none ↔
        ∃ c kws, (c, kws) ∈ extract_tags_by_category d ∧ k ∈ kws)
    ∧ (∀ k, k ∈ extract_tags d none →
        ∀ c, c ∈ keywordToCategories k →
          ∃ kws, (c, kws) ∈ extract_tags_by_category d ∧ k ∈ kws)
    ∧ (∀ c kws, (c, kws) ∈ extract_tags_by_category d → kws ≠ []) := by
  have hE := extract_tags_by_category_eq d
  have key : ∀ k, k ∈ extract_tags d none →
      ∀ c, c ∈ keywordToCategories k →
        ∃ kws, (c, kws) ∈ extract_tags_by_category d ∧ k ∈ kws := by
    intro k hk c hc
    rcases mem_of_keywordToCategories hc with ⟨kws0, hmem, _⟩
    refine ⟨(extract_tags d none).foldl
      (fun l t => if c ∈ keywordToCategories t ∧ t ∉ l then l ++ [t] else l) [], ?_, ?_⟩
    · rw [hE]
      apply List.mem_filter.mpr
      constructor
      · exact List.mem_map.mpr ⟨(c, kws0), hmem, rfl⟩
      · have hkb : k ∈ (extract_tags d none).foldl
            (fun l t => if c ∈ keywordToCategories t ∧ t ∉ l then l ++ [t] else l) [] :=
          (mem_foldl_step c (extract_tags d none) [] k).mpr (Or.inr ⟨hk, hc⟩)
        simp [List.isEmpty_iff, List.ne_nil_of_mem hkb]
    · exact (mem_foldl_step c (extract_tags d none) [] k).mpr (Or.inr ⟨hk, hc⟩)
  refine ⟨?_, key, ?_⟩
  · intro k
    constructor
    · intro hk
      rcases mem_find_keywords.mp (mem_extract_tags_iff.mp hk) with
        ⟨c, _, kws, hl, hkw, _⟩
      have hc : c ∈ keywordToCategories k :=
        keywordToCategories_of_mem (lookupCat_mem hl) hkw
      rcases key k hk c hc with ⟨kws', hmem, hk'⟩
      exact ⟨c, kws', hmem, hk'⟩
    · rintro ⟨c, kws, hmem, hk⟩
      rw [hE] at hmem
      have h1 := (List.mem_filter.mp hmem).1
      rcases List.mem_map.mp h1 with ⟨p, _, hp⟩
      have hkws : kws = (extract_tags d none).foldl
          (fun l t => if p.1 ∈ keywordToCategories t ∧ t ∉ l then l ++ [t] else l) [] := by
        have h3 := congrArg Prod.snd hp
        simpa using h3.symm
      rw [hkws] at hk
      rcases (mem_foldl_step p.1 (extract_tags d none) [] k).mp hk with h | h
      · exact absurd h (List.not_mem_nil k)
      · exact h.1
  · intro c kws hmem
    rw [hE] at hmem
    have h2 := (List.mem_filter.mp hmem).2
    simpa [List.isEmpty_iff] using h2

theorem category_round_trip_witness :
    ∃ c kws, (c, kws) ∈ extract_tags_by_category "wine" ∧ "wine" ∈ kws :=
  ((category_round_trip "wine").1 "wine").mp (by decide)

theorem flatMap_pyUpperChar_ascii {l : List Char} (h : ∀ c ∈ l, c.toNat < 128) :
    l.flatMap pyUpperChar = l.map Char.toUpper := by
  induction l with
  | nil => rfl
  | cons a as ih =>
    rw [List.flatMap_cons, List.map_cons,
      ih (fun c hc => h c (List.mem_cons_of_mem a hc))]
    have ha : a.toNat ≠ 223 := by
      have := h a (List.mem_cons_self a as)
      omega
    unfold pyUpperChar
    rw [if_neg ha]
    rfl

theorem flatMap_pyLowerChar_ascii {l : List Char} (h : ∀ c ∈ l, c.toNat < 128) :
    l.flatMap pyLowerChar = l.map Char.toLower := by
  induction l with
  | nil => rfl
  | cons a as ih =>
    rw [List.flatMap_cons, List.map_cons,
      ih (fun c hc => h c (List.mem_cons_of_mem a hc))]
    have ha : a.toNat ≠ 304 := by
      have := h a (List.mem_cons_self a as)
      omega
    unfold pyLowerChar
    rw [if_neg ha]
    rfl

/-- C8 counterexample: case-insensitivity fails on Unicode input.
Python uppercases 'ß' to "SS", so "buß".upper() is "BUSS", whose lowercased
text "buss" fires the plural variant "bus"+"s" of the keyword "bus" and
yields ["bus"] — while extract_tags "buß" yields [] (in Python 'ß' is a
word character, so `\bbus\b` and all variants fail on "buß"; in this
embedding 'ß' is outside the modelled ASCII `\w` class and is stripped as
punctuation, leaving "bu", where they fail as well — the program and the
embedding agree on the value [] at this input). -/
theorem case_insensitive_counterexample :
    extract_tags (pyUpper "buß") none ≠ extract_tags "buß" none := by
  decide

/-- C8 (amended): for descriptions made of ASCII characters only,
extraction is case-insensitive — uppercasing or lowercasing the description
leaves the extracted ordered sequence unchanged. (On general Unicode input
the `upper()` equality fails, e.g. on "buß".) -/
theorem extract_tags_case_insensitive_ascii (d : String)
    (cats : Option (List String)) (h : ∀ c ∈ d.toList, c.toNat < 128) :
    extract_tags (pyUpper d) cats = extract_tags d cats
    ∧ extract_tags (pyLower d) cats = extract_tags d cats := by
  have hu : pyUpper d = String.mk (d.toList.map Char.toUpper) := by
    unfold pyUpper
    rw [flatMap_pyUpperChar_ascii h]
  have hl : pyLower d = String.mk (d.toList.map Char.toLower) := by
    unfold pyLower
    rw [flatMap_pyLowerChar_ascii h]
  rw [hu, hl]
  exact ⟨extract_tags_map_eq toLower_toUpper pyIsSpace_toUpper d cats,
    extract_tags_map_eq toLower_toLower pyIsSpace_toLower d cats⟩

theorem extract_tags_case_insensitive_ascii_witness :
    extract_tags (pyUpper "Great wine") none = extract_tags "Great wine" none
    ∧ extract_tags (pyLower "Great wine") none = extract_tags "Great wine" none :=
  extract_tags_case_insensitive_ascii "Great wine" none (by decide)

/-- C9 counterexample: `TagExtractor.__init__` takes no taxonomy argument;
the constructed state always carries the built-in default taxonomy, so no
alternate taxonomy supplied at construction is ever used. -/
theorem tagExtractor_init_default :
    tagExtractor_init.categories = get_tag_categories := rfl

set_option maxRecDepth 4096 in
/-- C9 (amended): the Extractor is constructed with no required
configuration and always uses the built-in default taxonomy; the reverse
index it builds maps each keyword to exactly the categories containing it,
in taxonomy order. -/
theorem tagExtractor_init_spec :
    tagExtractor_init.categories = get_tag_categories
    ∧ tagExtractor_init.keyword_to_categories = buildKeywordIndex
    ∧ (∀ q ∈ tagExtractor_init.keyword_to_categories,
        q.2 = keywordToCategories q.1) := by
  refine ⟨rfl, rfl, ?_⟩
  decide

set_option maxRecDepth 4096 in
theorem tagExtractor_init_spec_witness :
    (("restaurant", ["food"]) : String × List String).2
      = keywordToCategories "restaurant" :=
  tagExtractor_init_spec.2.2 ("restaurant", ["food"]) (by decide)

/-- C10: every extracted tag is a keyword declared in the list of one of the
scanned categories — the output never leaves the controlled vocabulary. -/
theorem tags_from_scanned_categories (d : String) (cats : Option (List String))
    (t : String) (h : t ∈ extract_tags d cats) :
    ∃ c kws, c ∈ categoriesToSearch cats ∧ lookupCat c = some kws ∧ t ∈ kws := by
  rcases mem_find_keywords.mp (mem_extract_tags_iff.mp h) with
    ⟨c, hc, kws, hl, hk, _⟩
  exact ⟨c, kws, hc, hl, hk⟩

theorem tags_from_scanned_categories_witness :
    ∃ c kws, c ∈ categoriesToSearch none ∧ lookupCat c = some kws ∧ "inn" ∈ kws :=
  tags_from_scanned_categories "inn" none "inn" (by decide)

end TravelJournal
